import Mathlib

/-!
Verification of the stringi word-wrap core (src/src/common.cpp).

The development shallowly embeds the functions of the repository:
  - stri__mkStringNA / stri__mkStringEmpty (character-vector helpers),
  - stri__wrap_greedy (greedy line-break planner),
  - stri__wrap_dynamic (dynamic-programming line-break planner, with its
    cost matrix, forward table f and boolean matrix where),
  - the per-string part of stri_wrap (code-point scan producing the word
    metrics, policy dispatch, terminal break append, line building), and
  - the batch entry point stri_wrap (width validation, NA propagation).

Machine integers (R_len_t, int) are embedded as Nat/Int; the double cost
values are embedded as rationals, with the real-number power function
pow(ct, exponent) abstracted by a parameter pw applied to the integer ct
(in the code ct is a nonnegative int whenever pw is applied on the
feasible path, and pow of a nonnegative base is nonnegative, which is
the hypothesis the theorems take).  The external collaborators (the ICU
BreakIterator and the White_space classifier) are parameters: a string
arrives together with the boundary offsets the segmenter produced for
it, and the whitespace predicate is an argument.  UTF-8 is embedded at
the code-point level: a string is a list of symbols, each symbol either
a decoded code point or a non-decodable byte, and byte offsets coincide
with symbol indices.
-/

namespace StringiWrap

/-! ## Character-vector helpers (stri__mkStringNA, stri__mkStringEmpty) -/

/-- An element of an R character vector: NA_STRING or a string. -/
inductive RChar where
  | NA : RChar
  | chr : List Nat → RChar
deriving DecidableEq

/-- `stri__mkStringNA` from src/src/common.cpp: for `howmany <= 0` the
function returns `R_NilValue` (embedded as `none`); otherwise it returns a
character vector of length `howmany` filled with `NA_STRING`. -/
def stri__mkStringNA (howmany : Int) : Option (List RChar) :=
  if howmany ≤ 0 then none
  else some (List.replicate howmany.toNat RChar.NA)

/-- `stri__mkStringEmpty` from src/src/common.cpp: for `howmany <= 0` the
function returns `R_NilValue`; otherwise a character vector of length
`howmany` filled with empty strings (`mkCharLen(NULL, 0)`). -/
def stri__mkStringEmpty (howmany : Int) : Option (List RChar) :=
  if howmany ≤ 0 then none
  else some (List.replicate howmany.toNat (RChar.chr []))

/-! ## Greedy planner (stri__wrap_greedy)

The C++ loop is
  cur_len = counts_orig[0];
  for (j = 1; j < noccurences-1; ++j)
    if (cur_len + counts_trim[j] > width) { cur_len = counts_orig[j]; wrap.push_back(j-1); }
    else cur_len += counts_orig[j];
with `noccurences - 1` the number of words `n`; the loop therefore visits
words `j = 1 .. n-1`.  It is embedded with a fuel argument counting the
remaining iterations. -/

/-- One pass of the greedy loop: `fuel` iterations starting at word `j`
with accumulated line width `cur`. -/
def greedyAux (W : Nat) (orig trim : Nat → Nat) (cur j : Nat) : Nat → List Nat
  | 0 => []
  | fuel + 1 =>
      if W < cur + trim j then
        (j - 1) :: greedyAux W orig trim (orig j) (j + 1) fuel
      else
        greedyAux W orig trim (cur + orig j) (j + 1) fuel

/-- `stri__wrap_greedy`: `n` is the number of words (`noccurences - 1`).
The loop body runs for `j = 1, …, n-1`, i.e. `n - 1` times. -/
def stri__wrap_greedy (W : Nat) (orig trim : Nat → Nat) (n : Nat) : List Nat :=
  greedyAux W orig trim (orig 0) 1 (n - 1)

/-! ## Dynamic planner (stri__wrap_dynamic)

The code fills a matrix `cost[i][j]` of doubles: the running sum over a
row starts at `counts_trim[i]` and, at each step to the next `j`,
replaces the trimmed width of the previous word by its original width
and adds the trimmed width of word `j`; `ct = width - sum`; a negative
`cost` value (-1) is the "infinity" sentinel, and once a cell of a row
is the sentinel every later cell of the row is too.  `pw` stands for
`pow(·, exponent_val)` applied to the int `ct`. -/

/-- One row of the cost matrix: `costCell i d` is
(`cost[i][i+d]`, running sum after column `i+d`). -/
def costCell (pw : Int → ℚ) (W : Nat) (orig trim : Nat → Nat) (i : Nat) :
    Nat → ℚ × Int
  | 0 =>
      let sum : Int := trim i
      let ct : Int := (W : Int) - sum
      (if ct < 0 then 0 else pw ct, sum)
  | d + 1 =>
      let p := costCell pw W orig trim i d
      if p.1 < 0 then (-1, p.2)
      else
        let sum : Int := p.2 - trim (i + d) + orig (i + d) + trim (i + d + 1)
        let ct : Int := (W : Int) - sum
        (if ct < 0 then -1 else pw ct, sum)

/-- `cost[i][j]`, the cost of printing words `i..j` on one line. -/
def cost (pw : Int → ℚ) (W : Nat) (orig trim : Nat → Nat) (i j : Nat) : ℚ :=
  (costCell pw W orig trim i (j - i)).1

/-- The `while (i <= j)` scan: the first `i` (from 0) with
`cost[i+1][j] >= 0`; `j` is returned if the scan finds none (with a
nonnegative `pw` the fallback is never taken, since `cost[j][j] >= 0`). -/
def firstFeasible (pw : Int → ℚ) (W : Nat) (orig trim : Nat → Nat) (j : Nat) : Nat :=
  ((List.range j).find? fun i => decide (0 ≤ cost pw W orig trim (i + 1) j)).getD j

/-- The `for (k = i+1; k < j; ++k)` scan refining the chosen wrap-after
index: state is (chosen index, best value); a candidate `k` replaces the
state when `cost[k+1][j] >= 0` and `f[k] + cost[k+1][j]` is strictly
smaller than the best value so far.  The initial best value is
`f[0] + cost[i0+1][j]`, with `f[0]` exactly as in the source. -/
def kLoop (pw : Int → ℚ) (W : Nat) (orig trim : Nat → Nat) (f : Nat → ℚ)
    (j i0 : Nat) : Nat × ℚ :=
  (List.range' (i0 + 1) (j - i0 - 1)).foldl
    (fun p k =>
      if 0 ≤ cost pw W orig trim (k + 1) j ∧
          f k + cost pw W orig trim (k + 1) j < p.2 then
        (k, f k + cost pw W orig trim (k + 1) j)
      else p)
    (i0, f 0 + cost pw W orig trim (i0 + 1) j)

/-- One iteration of the forward loop `for (j = 0; j < n; ++j)`:
either `cost[0][j] >= 0` and words `0..j` fit one line (`f[j]` set, row
`j` of `where` untouched), or the best split is chosen and row `j`
becomes row `i` below `i` plus `true` at `i`. -/
def dynStep (pw : Int → ℚ) (W : Nat) (orig trim : Nat → Nat)
    (st : (Nat → ℚ) × (Nat → Nat → Bool)) (j : Nat) :
    (Nat → ℚ) × (Nat → Nat → Bool) :=
  let f := st.1
  let w := st.2
  if 0 ≤ cost pw W orig trim 0 j then
    (Function.update f j (cost pw W orig trim 0 j), w)
  else
    let r := kLoop pw W orig trim f j (firstFeasible pw W orig trim j)
    (Function.update f j r.2,
     Function.update w j fun k => if k < r.1 then w r.1 k else decide (k = r.1))

/-- State (`f`, `where`) after processing forward-loop indices `0..m-1`;
the vectors start out value-initialized (`f` all 0, `where` all false). -/
def dynIter (pw : Int → ℚ) (W : Nat) (orig trim : Nat → Nat) : Nat →
    (Nat → ℚ) × (Nat → Nat → Bool)
  | 0 => (fun _ => 0, fun _ _ => false)
  | m + 1 => dynStep pw W orig trim (dynIter pw W orig trim m) m

/-- `stri__wrap_dynamic`: run the forward loop for `j = 0..n-1` and read
the wrap-after indices off the last row of `where`, in increasing order. -/
def stri__wrap_dynamic (pw : Int → ℚ) (W : Nat) (orig trim : Nat → Nat)
    (n : Nat) : List Nat :=
  (List.range n).filter fun k => (dynIter pw W orig trim n).2 (n - 1) k

/-! ## Per-string scan and driver (stri_wrap)

A string is a list of symbols; each symbol is a decoded code point or a
non-decodable byte (`U8_NEXT` yielding `c < 0`).  Offsets are symbol
indices.  The boundary offsets `pos` come from the external
BreakIterator; the whitespace classifier `white` is a parameter.  The
embedded line-break set is the concrete ICU set
`[\u000A-\u000D\u0085  ]` built in the source. -/

/-- One scanned unit of a string: a decoded code point or an invalid
byte sequence. -/
inductive Sym where
  | cp : Nat → Sym
  | bad : Sym
deriving DecidableEq

/-- Errors: `invalidArgument` for the `width <= 0` check,
`hardBreak` for `throw StriException(MSG__NEWLINE_FOUND)`. -/
inductive Err where
  | invalidArgument : Err
  | hardBreak : Err
deriving DecidableEq

/-- The forbidden embedded line breaks, from
`UnicodeSet("[\u000A-\u000D\u0085  ]")`:
LF, VT, FF, CR, NEL, LINE SEPARATOR, PARAGRAPH SEPARATOR. -/
def lineBreakList : List Nat := [0x0A, 0x0B, 0x0C, 0x0D, 0x85, 0x2028, 0x2029]

/-- The scan state: current block index, the running counters
`cur_count_orig`, `cur_count_trim` (length of the trailing whitespace
run) and `cur_end_pos_trim`, the output arrays (value-initialized to 0),
and whether the invalid-sequence branch has run (`SET_VECTOR_ELT` of the
fallback value). -/
structure ScanSt where
  curBlock : Nat
  curOrig : Nat
  curTrim : Nat
  curEnd : Nat
  countsOrig : Nat → Nat
  countsTrim : Nat → Nat
  endPos : Nat → Nat
  fellback : Bool

/-- The initial scan state (all counters 0, arrays value-initialized). -/
def scanInit : ScanSt :=
  ⟨0, 0, 0, 0, fun _ => 0, fun _ => 0, fun _ => 0, false⟩

/-- The `while (j < str_cur_n)` measurement loop.  `j` is the offset of
the symbol about to be read; `total` is the string length.  An invalid
sequence stores the fallback (flag) and `continue`s the *while* loop; a
line-break code point throws; otherwise the counters are updated and the
per-word metrics are flushed when a block ends. -/
def scan (white : Nat → Bool) (pos : List Nat) (total : Nat) :
    List Sym → Nat → ScanSt → Except Err ScanSt
  | [], _, st => .ok st
  | s :: rest, j, st =>
      match s with
      | .bad => scan white pos total rest (j + 1) { st with fellback := true }
      | .cp c =>
          if c ∈ lineBreakList then .error .hardBreak
          else
            let co := st.curOrig + 1
            let ct := if white c then st.curTrim + 1 else 0
            let ce := if white c then st.curEnd else j + 1
            if total ≤ j + 1 ∨ pos.getD (st.curBlock + 1) 0 ≤ j + 1 then
              scan white pos total rest (j + 1)
                { curBlock := st.curBlock + 1
                  curOrig := 0
                  curTrim := 0
                  curEnd := j + 1
                  countsOrig := Function.update st.countsOrig st.curBlock co
                  countsTrim := Function.update st.countsTrim st.curBlock (co - ct)
                  endPos := Function.update st.endPos st.curBlock ce
                  fellback := st.fellback }
            else
              scan white pos total rest (j + 1)
                { st with curOrig := co, curTrim := ct, curEnd := ce }

/-- `wrap.push_back(noccurences-2)`: the planner output followed by the
unconditional terminal line end. -/
def finalBreaks (breaks : List Nat) (noccur : Nat) : List Nat :=
  breaks ++ [noccur - 2]

/-- The line builder: for each wrap-after index `k`, the line is the
slice `[last_pos, end_pos_trim[k])` and the next line starts at
`pos[k+1]`. -/
def build (syms : List Sym) (pos : List Nat) (endPos : Nat → Nat) :
    List Nat → Nat → List (List Sym)
  | [], _ => []
  | k :: rest, lastPos =>
      ((syms.drop lastPos).take (endPos k - lastPos)) ::
        build syms pos endPos rest (pos.getD (k + 1) 0)

/-- The per-string body of `stri_wrap` for a non-NA string: fewer than
two boundaries short-circuit to the string itself; otherwise the string
is scanned, the policy chosen by the sign of the cost exponent plans the
breaks, the terminal break is appended, and the lines are built. -/
def wrapOne (white : Nat → Bool) (pw : Int → ℚ) (expo : ℚ) (W : Nat)
    (syms : List Sym) (pos : List Nat) : Except Err (List (List Sym)) :=
  let noccur := pos.length
  if noccur ≤ 1 then .ok [syms]
  else
    match scan white pos syms.length syms 0 scanInit with
    | .error e => .error e
    | .ok st =>
        let breaks :=
          if expo ≤ 0 then stri__wrap_greedy W st.countsOrig st.countsTrim (noccur - 1)
          else stri__wrap_dynamic pw W st.countsOrig st.countsTrim (noccur - 1)
        .ok (build syms pos st.endPos (finalBreaks breaks noccur) 0)

/-- One element of the batch result: NA in, NA out; otherwise the lines. -/
inductive WrapRes where
  | NA : WrapRes
  | lines : List (List Sym) → WrapRes
deriving DecidableEq

/-- The batch entry point `stri_wrap`: `width <= 0` is rejected up
front (`Rf_error(MSG__EXPECTED_POSITIVE, "width")`) before any
per-string work; afterwards each string is processed independently and
a thrown per-string error aborts the whole call.  Each input string
comes paired with the boundary offsets the external segmenter produced
for it; `none` is the NA marker. -/
def stri_wrap (white : Nat → Bool) (pw : Int → ℚ) (expo : ℚ) (width : Int)
    (strs : List (Option (List Sym × List Nat))) : Except Err (List WrapRes) :=
  if width ≤ 0 then .error .invalidArgument
  else
    strs.mapM fun s =>
      match s with
      | none => .ok WrapRes.NA
      | some (syms, pos) =>
          match wrapOne white pw expo width.toNat syms pos with
          | .error e => .error e
          | .ok ls => .ok (WrapRes.lines ls)

/-! ## Specification-side definitions

Closed-form line widths, the claimed cost formula (for comparison with
the code), the claimed and the amended greedy iteration, and the
interpretation of a break list as line segments. -/

/-- Width accounting of a line holding words `i..j`, as the code's
running sum turns out: every word but the last contributes its original
width, the last word contributes its trimmed width. -/
def lineSum (orig trim : Nat → Nat) (i j : Nat) : Nat :=
  (∑ k ∈ Finset.Ico i j, orig k) + trim j

/-- Width accounting as the claim words it: trimmed widths for words
`i..j-1` plus the original width of word `j`. -/
def lineSumClaim (orig trim : Nat → Nat) (i j : Nat) : Nat :=
  (∑ k ∈ Finset.Ico i j, trim k) + orig j

/-- The cost formula exactly as claim C1 words it, built on
`lineSumClaim`: infeasible sentinel when the sum exceeds the budget,
except that a single-word line is never infeasible (an overlong single
word gets cost 0); otherwise the leftover raised to the exponent. -/
def costClaim (pw : Int → ℚ) (W : Nat) (orig trim : Nat → Nat) (i j : Nat) : ℚ :=
  if (W : Int) < lineSumClaim orig trim i j then (if i = j then 0 else -1)
  else pw ((W : Int) - lineSumClaim orig trim i j)

/-- The closed form of the code's cost cell, built on `lineSum`. -/
def costDirect (pw : Int → ℚ) (W : Nat) (orig trim : Nat → Nat) (i j : Nat) : ℚ :=
  if (W : Int) < lineSum orig trim i j then (if i = j then 0 else -1)
  else pw ((W : Int) - lineSum orig trim i j)

/-- One step of the greedy iteration as described: state is (current
line width, emitted breaks); a word whose trimmed width overflows the
line emits a break after the previous word and resets the width to its
original width, otherwise its original width is added. -/
def greedyStepFn (W : Nat) (orig trim : Nat → Nat) (p : Nat × List Nat)
    (j : Nat) : Nat × List Nat :=
  if W < p.1 + trim j then (orig j, p.2 ++ [j - 1]) else (p.1 + orig j, p.2)

/-- The greedy iteration exactly as claim C3 words it: words
`j = 1 .. wordCount-2` are visited (`n` is the word count). -/
def greedyClaimIter (W : Nat) (orig trim : Nat → Nat) (n : Nat) : List Nat :=
  ((List.range' 1 (n - 2)).foldl (greedyStepFn W orig trim) (orig 0, [])).2

/-- The amended greedy iteration: words `j = 1 .. wordCount-1` are
visited, as in the code (`for (j = 1; j < noccurences-1; ++j)` with
`noccurences - 1` equal to the word count). -/
def greedyAmendIter (W : Nat) (orig trim : Nat → Nat) (n : Nat) : List Nat :=
  ((List.range' 1 (n - 1)).foldl (greedyStepFn W orig trim) (orig 0, [])).2

/-- The line segments determined by a break list: with breaks
`b₁ < … < bₘ` and final word `last`, the lines hold words
`a..b₁`, `b₁+1..b₂`, …, `bₘ+1..last`. -/
def linesFrom (a : Nat) (bs : List Nat) (last : Nat) : List (Nat × Nat) :=
  (a :: bs.map (· + 1)).zip (bs ++ [last])

/-! ## Concrete instances used by counterexamples and witnesses -/

/-- The cost exponent 2: `pow(ct, 2.0)`, written as a product so that
concrete instances evaluate by kernel reduction. -/
def pw2 (c : Int) : ℚ := (c : ℚ) * (c : ℚ)

/-- A concrete whitespace classifier: exactly the space code point. -/
def white0 (c : Nat) : Bool := c == 32

/-- Original widths of the C5 failing input. -/
def oEx5 (k : Nat) : Nat := [1, 2, 4, 5].getD k 0

/-- Trimmed widths of the C5 failing input. -/
def tEx5 (k : Nat) : Nat := [1, 2, 2, 5].getD k 0

/-- Original widths for the C1 counterexample (a word with one trailing
whitespace code point, then a bare word). -/
def oSwap (k : Nat) : Nat := [2, 1].getD k 0

/-- Trimmed widths for the C1 counterexample. -/
def tSwap (k : Nat) : Nat := [1, 1].getD k 0

/-- Two words of width 2 with no trailing whitespace (C3 counterexample). -/
def oTwo (k : Nat) : Nat := [2, 2].getD k 0

/-- Original widths of the words of "The quick brown fox jumps". -/
def oFox (k : Nat) : Nat := [4, 6, 6, 4, 5].getD k 0

/-- Trimmed widths of the words of "The quick brown fox jumps". -/
def tFox (k : Nat) : Nat := [3, 5, 5, 3, 5].getD k 0

/-- The C4 failing input: a letter followed by a non-decodable byte. -/
def c4str : List Sym := [Sym.cp 97, Sym.bad]

/-- The symbols of "ab cd". -/
def abcd : List Sym := [Sym.cp 97, Sym.cp 98, Sym.cp 32, Sym.cp 99, Sym.cp 100]

/-! ## Lemmas about the cost matrix -/

section CostLemmas

variable {pw : Int → ℚ} {W : Nat} {orig trim : Nat → Nat}

lemma lineSum_self (i : Nat) : lineSum orig trim i i = trim i := by
  simp [lineSum]

lemma lineSum_succ (i d : Nat) :
    (lineSum orig trim i (i + d + 1) : Int) =
      (lineSum orig trim i (i + d) : Int) - trim (i + d) + orig (i + d) +
        trim (i + d + 1) := by
  unfold lineSum
  rw [Finset.sum_Ico_succ_top (Nat.le_add_right i d) orig]
  push_cast
  ring

lemma costCell_zero (i : Nat) :
    costCell pw W orig trim i 0 =
      (if (W : Int) - trim i < 0 then 0 else pw ((W : Int) - trim i),
       (trim i : Int)) := by
  simp only [costCell]

lemma costCell_succ_neg {i d : Nat} (h : (costCell pw W orig trim i d).1 < 0) :
    costCell pw W orig trim i (d + 1) = (-1, (costCell pw W orig trim i d).2) := by
  rw [costCell, if_pos h]

lemma costCell_succ_pos {i d : Nat} (h : ¬(costCell pw W orig trim i d).1 < 0) :
    costCell pw W orig trim i (d + 1) =
      (if (W : Int) - ((costCell pw W orig trim i d).2 - trim (i + d) +
            orig (i + d) + trim (i + d + 1)) < 0 then -1
        else pw ((W : Int) - ((costCell pw W orig trim i d).2 - trim (i + d) +
            orig (i + d) + trim (i + d + 1))),
       (costCell pw W orig trim i d).2 - trim (i + d) + orig (i + d) +
         trim (i + d + 1)) := by
  rw [costCell, if_neg h]

/-- If a cell is not the sentinel, the running sum stored with it is the
true line width. -/
lemma costCell_snd (i : Nat) :
    ∀ d, 0 ≤ (costCell pw W orig trim i d).1 →
      (costCell pw W orig trim i d).2 = (lineSum orig trim i (i + d) : Int)
  | 0, _ => by
      rw [costCell_zero]
      simp [lineSum_self]
  | d + 1, h => by
      by_cases hp : (costCell pw W orig trim i d).1 < 0
      · rw [costCell_succ_neg hp] at h
        norm_num at h
      · rw [costCell_succ_pos hp] at h ⊢
        by_cases hct : (W : Int) - ((costCell pw W orig trim i d).2 -
            trim (i + d) + orig (i + d) + trim (i + d + 1)) < 0
        · rw [if_pos hct] at h
          norm_num at h
        · have hsnd := costCell_snd i d (not_lt.1 hp)
          show (costCell pw W orig trim i d).2 - trim (i + d) + orig (i + d) +
              trim (i + d + 1) = (lineSum orig trim i (i + d + 1) : Int)
          rw [hsnd, lineSum_succ]

lemma lineSum_mono (Hto : ∀ k, trim k ≤ orig k) (i : Nat) :
    ∀ d, lineSum orig trim i (i + d) ≤ lineSum orig trim i (i + d + 1) := by
  intro d
  unfold lineSum
  rw [Finset.sum_Ico_succ_top (Nat.le_add_right i d) orig]
  have := Hto (i + d)
  omega

lemma lineSum_mono_le (Hto : ∀ k, trim k ≤ orig k) (i : Nat) :
    ∀ d e, d ≤ e → lineSum orig trim i (i + d) ≤ lineSum orig trim i (i + e) := by
  intro d e
  induction e with
  | zero =>
      intro h
      have : d = 0 := by omega
      subst this
      exact le_refl _
  | succ e ih =>
      intro h
      rcases Nat.lt_or_ge d (e + 1) with h1 | h1
      · exact le_trans (ih (by omega)) (lineSum_mono Hto i e)
      · have : d = e + 1 := by omega
        subst this
        exact le_refl _

/-- On a fully feasible span (with nonnegative `pw` and the measurement
invariant `trim ≤ orig`) the cell holds the leftover penalty and the
true line width. -/
lemma costCell_of_fits (Hpw : ∀ c : Int, 0 ≤ c → 0 ≤ pw c)
    (Hto : ∀ k, trim k ≤ orig k) (i : Nat) :
    ∀ d, (lineSum orig trim i (i + d) : Int) ≤ (W : Int) →
      costCell pw W orig trim i d =
        (pw ((W : Int) - lineSum orig trim i (i + d)),
         (lineSum orig trim i (i + d) : Int)) := by
  intro d
  induction d with
  | zero =>
      intro h
      rw [costCell_zero]
      have h0 : lineSum orig trim i (i + 0) = trim i := by
        simp [lineSum_self]
      rw [h0] at h
      rw [if_neg (by omega)]
      simp [lineSum_self]
  | succ d ih =>
      intro h
      have h1 : (lineSum orig trim i (i + d + 1) : Int) ≤ (W : Int) := h
      have hd : (lineSum orig trim i (i + d) : Int) ≤ (W : Int) := by
        have := lineSum_mono Hto i d
        omega
      have hprev := ih hd
      have hp : ¬(costCell pw W orig trim i d).1 < 0 := by
        rw [hprev]
        exact not_lt.2 (Hpw _ (by omega))
      rw [costCell_succ_pos hp, hprev]
      have hs : ((lineSum orig trim i (i + d) : Int)) - trim (i + d) +
          orig (i + d) + trim (i + d + 1) =
            (lineSum orig trim i (i + d + 1) : Int) := by
        rw [lineSum_succ]
      rw [hs]
      rw [if_neg (by omega)]
      rfl

/-- A multi-word span that overflows the budget is the sentinel. -/
lemma costCell_of_over (i : Nat) :
    ∀ d, 1 ≤ d → (W : Int) < (lineSum orig trim i (i + d) : Int) →
      (costCell pw W orig trim i d).1 = -1 := by
  intro d
  induction d with
  | zero => omega
  | succ d ih =>
      intro _ h
      have h1 : (W : Int) < (lineSum orig trim i (i + d + 1) : Int) := h
      by_cases hp : (costCell pw W orig trim i d).1 < 0
      · rw [costCell_succ_neg hp]
      · rw [costCell_succ_pos hp]
        have hsnd := costCell_snd i d (not_lt.1 hp)
        have hs : (costCell pw W orig trim i d).2 - trim (i + d) +
            orig (i + d) + trim (i + d + 1) =
              (lineSum orig trim i (i + d + 1) : Int) := by
          rw [hsnd, lineSum_succ]
        rw [hs]
        rw [if_pos (by omega)]

/-- The closed form of the cost matrix: the code's running-sum and
sentinel-propagation scheme computes precisely `costDirect`, which
charges every word but the last its original width and the last word
its trimmed width. -/
lemma cost_eq_costDirect (Hpw : ∀ c : Int, 0 ≤ c → 0 ≤ pw c)
    (Hto : ∀ k, trim k ≤ orig k) {i j : Nat} (hij : i ≤ j) :
    cost pw W orig trim i j = costDirect pw W orig trim i j := by
  have hij2 : i + (j - i) = j := by omega
  unfold cost costDirect
  rcases Nat.eq_or_lt_of_le hij with h | h
  · subst h
    simp only [Nat.sub_self]
    rw [costCell_zero]
    simp only [lineSum_self]
    by_cases hc : (W : Int) < (trim i : Int)
    · rw [if_pos hc]
      simp [show (W : Int) - (trim i : Int) < 0 by omega]
    · rw [if_neg hc]
      simp [show ¬((W : Int) - (trim i : Int) < 0) by omega]
  · by_cases hc : (W : Int) < (lineSum orig trim i j : Int)
    · rw [if_pos hc, if_neg (by omega)]
      have hd1 : 1 ≤ j - i := by omega
      have hd2 : (W : Int) < (lineSum orig trim i (i + (j - i)) : Int) := by
        rw [hij2]
        exact hc
      exact costCell_of_over i (j - i) hd1 hd2
    · rw [if_neg hc]
      have hd2 : (lineSum orig trim i (i + (j - i)) : Int) ≤ (W : Int) := by
        rw [hij2]
        omega
      have hfit := costCell_of_fits Hpw Hto i (j - i) hd2
      rw [hij2] at hfit
      simp [hfit]

/-- A diagonal cell is never negative: a single word never gets the
sentinel, even when it alone overflows the budget. -/
lemma cost_diag_nonneg (Hpw : ∀ c : Int, 0 ≤ c → 0 ≤ pw c) (i : Nat) :
    0 ≤ cost pw W orig trim i i := by
  unfold cost
  simp only [Nat.sub_self]
  rw [costCell_zero]
  by_cases hc : (W : Int) - (trim i : Int) < 0
  · rw [if_pos hc]
  · rw [if_neg hc]
    exact Hpw _ (by omega)

/-- A non-sentinel multi-word cell fits the budget. -/
lemma cost_nonneg_fits {i j : Nat} (hij : i < j)
    (h : 0 ≤ cost pw W orig trim i j) :
    (lineSum orig trim i j : Int) ≤ (W : Int) := by
  by_contra hc
  push_neg at hc
  have hij2 : i + (j - i) = j := by omega
  have := @costCell_of_over pw W orig trim i (j - i) (by omega)
    (by rw [hij2]; exact hc)
  unfold cost at h
  rw [this] at h
  norm_num at h

end CostLemmas

/-! ## Lemmas about the greedy planner -/

section GreedyLemmas

variable {W : Nat} {orig trim : Nat → Nat}

lemma greedyAux_zero (cur j : Nat) : greedyAux W orig trim cur j 0 = [] := rfl

lemma greedyAux_succ (cur j fuel : Nat) :
    greedyAux W orig trim cur j (fuel + 1) =
      if W < cur + trim j then
        (j - 1) :: greedyAux W orig trim (orig j) (j + 1) fuel
      else
        greedyAux W orig trim (cur + orig j) (j + 1) fuel := rfl

lemma linesFrom_nil (a last : Nat) : linesFrom a [] last = [(a, last)] := rfl

lemma linesFrom_cons (a b last : Nat) (bs : List Nat) :
    linesFrom a (b :: bs) last = (a, b) :: linesFrom (b + 1) bs last := rfl

lemma sum_Ico_single (f : Nat → Nat) (j : Nat) :
    (∑ k ∈ Finset.Ico j (j + 1), f k) = f j := by
  rw [Finset.sum_Ico_succ_top (le_refl j) f]
  simp

/-- Every break the greedy loop emits while fuel remains lies in
`[j-1, j+fuel-2]`. -/
lemma greedyAux_bounds :
    ∀ fuel j cur, 1 ≤ j → ∀ k ∈ greedyAux W orig trim cur j fuel,
      j ≤ k + 1 ∧ k + 2 ≤ j + fuel := by
  intro fuel
  induction fuel with
  | zero =>
      intro j cur _ k hk
      rw [greedyAux_zero] at hk
      exact absurd hk (List.not_mem_nil k)
  | succ fuel ih =>
      intro j cur hj k hk
      rw [greedyAux_succ] at hk
      by_cases hb : W < cur + trim j
      · rw [if_pos hb] at hk
        rcases List.mem_cons.1 hk with h | h
        · subst h
          omega
        · have := ih (j + 1) (orig j) (by omega) k h
          omega
      · rw [if_neg hb] at hk
        have := ih (j + 1) (cur + orig j) (by omega) k hk
        omega

/-- The greedy break list is strictly increasing. -/
lemma greedyAux_chain :
    ∀ fuel j cur, 1 ≤ j → List.Chain' (· < ·) (greedyAux W orig trim cur j fuel) := by
  intro fuel
  induction fuel with
  | zero =>
      intro j cur _
      rw [greedyAux_zero]
      exact List.chain'_nil
  | succ fuel ih =>
      intro j cur hj
      rw [greedyAux_succ]
      by_cases hb : W < cur + trim j
      · rw [if_pos hb]
        rw [List.chain'_cons']
        refine ⟨?_, ih (j + 1) (orig j) (by omega)⟩
        intro b hb2
        have hmem : b ∈ greedyAux W orig trim (orig j) (j + 1) fuel :=
          List.mem_of_mem_head? hb2
        have := greedyAux_bounds fuel (j + 1) (orig j) (by omega) b hmem
        omega
      · rw [if_neg hb]
        exact ih (j + 1) (cur + orig j) (by omega)

/-- Main greedy invariant: starting a line at `a` with the running width
equal to the total original width of words `a..j-1`, every line of the
remaining run is within the budget or a single word. -/
lemma greedyAux_lines :
    ∀ fuel j a, 1 ≤ j → a < j →
      (lineSum orig trim a (j - 1) ≤ W ∨ a = j - 1) →
      ∀ pe ∈ linesFrom a
          (greedyAux W orig trim (∑ k ∈ Finset.Ico a j, orig k) j fuel)
          (j + fuel - 1),
        W < lineSum orig trim pe.1 pe.2 → pe.1 = pe.2 := by
  intro fuel
  induction fuel with
  | zero =>
      intro j a hj ha hline pe hpe hover
      rw [greedyAux_zero, linesFrom_nil, Nat.add_zero] at hpe
      have hpe2 : pe = (a, j - 1) := List.mem_singleton.1 hpe
      subst hpe2
      show a = j - 1
      rcases hline with h | h
      · exfalso
        have hover2 : W < lineSum orig trim a (j - 1) := hover
        omega
      · exact h
  | succ fuel ih =>
      intro j a hj ha hline pe hpe hover
      rw [greedyAux_succ] at hpe
      have hcur : (∑ k ∈ Finset.Ico a j, orig k) + trim j = lineSum orig trim a j := rfl
      by_cases hb : W < (∑ k ∈ Finset.Ico a j, orig k) + trim j
      · rw [if_pos hb, linesFrom_cons] at hpe
        rcases List.mem_cons.1 hpe with h | h
        · subst h
          show a = j - 1
          rcases hline with h | h
          · exfalso
            have hover2 : W < lineSum orig trim a (j - 1) := hover
            omega
          · exact h
        · have hj1 : j - 1 + 1 = j := by omega
          rw [hj1] at h
          have hsum : orig j = ∑ k ∈ Finset.Ico j (j + 1), orig k :=
            (sum_Ico_single orig j).symm
          rw [hsum] at h
          have hlast : j + (fuel + 1) - 1 = (j + 1) + fuel - 1 := by omega
          rw [hlast] at h
          exact ih (j + 1) j (by omega) (by omega) (by right; omega) pe h hover
      · rw [if_neg hb] at hpe
        have hsum : (∑ k ∈ Finset.Ico a j, orig k) + orig j =
            ∑ k ∈ Finset.Ico a (j + 1), orig k := by
          rw [Finset.sum_Ico_succ_top (by omega : a ≤ j) orig]
        rw [hsum] at hpe
        have hlast : j + (fuel + 1) - 1 = (j + 1) + fuel - 1 := by omega
        rw [hlast] at hpe
        refine ih (j + 1) a (by omega) (by omega) ?_ pe hpe hover
        left
        have : (j + 1) - 1 = j := by omega
        rw [this, ← hcur]
        omega

/-- The fuel recursion agrees with a left fold of the step function over
the index range. -/
lemma greedy_foldl_eq :
    ∀ fuel j cur acc,
      ((List.range' j fuel).foldl (greedyStepFn W orig trim) (cur, acc)).2 =
        acc ++ greedyAux W orig trim cur j fuel := by
  intro fuel
  induction fuel with
  | zero =>
      intro j cur acc
      simp [greedyAux_zero]
  | succ fuel ih =>
      intro j cur acc
      have hr : List.range' j (fuel + 1) = j :: List.range' (j + 1) fuel :=
        List.range'_succ j fuel 1
      rw [hr, List.foldl_cons, greedyAux_succ]
      by_cases hb : W < cur + trim j
      · have hstep : greedyStepFn W orig trim (cur, acc) j = (orig j, acc ++ [j - 1]) := by
          unfold greedyStepFn
          rw [if_pos hb]
        rw [hstep, if_pos hb, ih]
        simp
      · have hstep : greedyStepFn W orig trim (cur, acc) j = (cur + orig j, acc) := by
          unfold greedyStepFn
          rw [if_neg hb]
        rw [hstep, if_neg hb, ih]

end GreedyLemmas

/-! ## Lemmas about the dynamic planner -/

section DynLemmas

variable {pw : Int → ℚ} {W : Nat} {orig trim : Nat → Nat}

lemma dynStep_pos (st : (Nat → ℚ) × (Nat → Nat → Bool)) (j : Nat)
    (h : 0 ≤ cost pw W orig trim 0 j) :
    dynStep pw W orig trim st j =
      (Function.update st.1 j (cost pw W orig trim 0 j), st.2) := by
  simp only [dynStep]
  rw [if_pos h]

lemma dynStep_neg (st : (Nat → ℚ) × (Nat → Nat → Bool)) (j : Nat)
    (h : ¬0 ≤ cost pw W orig trim 0 j) :
    dynStep pw W orig trim st j =
      (Function.update st.1 j
        (kLoop pw W orig trim st.1 j (firstFeasible pw W orig trim j)).2,
       Function.update st.2 j fun k =>
         if k < (kLoop pw W orig trim st.1 j (firstFeasible pw W orig trim j)).1 then
           st.2 (kLoop pw W orig trim st.1 j (firstFeasible pw W orig trim j)).1 k
         else decide
           (k = (kLoop pw W orig trim st.1 j (firstFeasible pw W orig trim j)).1)) := by
  simp only [dynStep]
  rw [if_neg h]

lemma dynIter_succ (m : Nat) :
    dynIter pw W orig trim (m + 1) =
      dynStep pw W orig trim (dynIter pw W orig trim m) m := rfl

/-- A row at or beyond the loop counter is still value-initialized. -/
lemma dynIter_row_untouched :
    ∀ m r, m ≤ r → (dynIter pw W orig trim m).2 r = fun _ => false := by
  intro m
  induction m with
  | zero => intro r _; rfl
  | succ m ih =>
      intro r hr
      rw [dynIter_succ]
      by_cases h : 0 ≤ cost pw W orig trim 0 m
      · rw [dynStep_pos _ _ h]
        exact ih r (by omega)
      · rw [dynStep_neg _ _ h]
        show Function.update (dynIter pw W orig trim m).2 m _ r = _
        rw [Function.update_noteq (by omega : r ≠ m)]
        exact ih r (by omega)

/-- A row already written is never touched again. -/
lemma dynIter_row_stable :
    ∀ m r, r < m →
      (dynIter pw W orig trim m).2 r = (dynIter pw W orig trim (r + 1)).2 r := by
  intro m
  induction m with
  | zero => intro r hr; omega
  | succ m ih =>
      intro r hr
      rcases Nat.lt_or_ge r m with h1 | h1
      · rw [dynIter_succ]
        by_cases h : 0 ≤ cost pw W orig trim 0 m
        · rw [dynStep_pos _ _ h]
          exact ih r h1
        · rw [dynStep_neg _ _ h]
          show Function.update (dynIter pw W orig trim m).2 m _ r = _
          rw [Function.update_noteq (by omega : r ≠ m)]
          exact ih r h1
      · have : r = m := by omega
        subst this
        rfl

/-- An `f` entry already written is never touched again. -/
lemma dynIter_f_stable :
    ∀ m r, r < m →
      (dynIter pw W orig trim m).1 r = (dynIter pw W orig trim (r + 1)).1 r := by
  intro m
  induction m with
  | zero => intro r hr; omega
  | succ m ih =>
      intro r hr
      rcases Nat.lt_or_ge r m with h1 | h1
      · rw [dynIter_succ]
        by_cases h : 0 ≤ cost pw W orig trim 0 m
        · rw [dynStep_pos _ _ h]
          show Function.update (dynIter pw W orig trim m).1 m _ r = _
          rw [Function.update_noteq (by omega : r ≠ m)]
          exact ih r h1
        · rw [dynStep_neg _ _ h]
          show Function.update (dynIter pw W orig trim m).1 m _ r = _
          rw [Function.update_noteq (by omega : r ≠ m)]
          exact ih r h1
      · have : r = m := by omega
        subst this
        rfl

/-- The `while` scan lands strictly below `j` on a feasible cell
(the diagonal cell `cost[j][j]` is always a feasible stop). -/
lemma firstFeasible_spec (Hpw : ∀ c : Int, 0 ≤ c → 0 ≤ pw c) (j : Nat)
    (hj : 1 ≤ j) :
    firstFeasible pw W orig trim j < j ∧
      0 ≤ cost pw W orig trim (firstFeasible pw W orig trim j + 1) j := by
  have hex : ∃ x ∈ List.range j,
      (fun i => decide (0 ≤ cost pw W orig trim (i + 1) j)) x = true := by
    refine ⟨j - 1, List.mem_range.2 (by omega), ?_⟩
    have h1 : j - 1 + 1 = j := by omega
    show decide (0 ≤ cost pw W orig trim (j - 1 + 1) j) = true
    rw [h1]
    exact decide_eq_true (cost_diag_nonneg Hpw j)
  have hsome : ((List.range j).find?
      (fun i => decide (0 ≤ cost pw W orig trim (i + 1) j))).isSome := by
    rw [List.find?_isSome]
    exact hex
  rcases Option.isSome_iff_exists.1 hsome with ⟨a, ha⟩
  have hfa : firstFeasible pw W orig trim j = a := by
    unfold firstFeasible
    rw [ha]
    rfl
  rw [hfa]
  constructor
  · exact List.mem_range.1 (List.mem_of_find?_eq_some ha)
  · have hpa : (fun i => decide (0 ≤ cost pw W orig trim (i + 1) j)) a = true :=
      @List.find?_some Nat (fun i => decide (0 ≤ cost pw W orig trim (i + 1) j))
        a (List.range j) ha
    exact of_decide_eq_true hpa

/-- The inner `for k` scan preserves "chosen index below `j`, chosen
cell feasible". -/
lemma kLoop_foldl_inv (f : Nat → ℚ) (j : Nat) :
    ∀ (l : List Nat), (∀ k ∈ l, k < j) →
      ∀ p : Nat × ℚ, p.1 < j → 0 ≤ cost pw W orig trim (p.1 + 1) j →
        ((l.foldl
          (fun p k =>
            if 0 ≤ cost pw W orig trim (k + 1) j ∧
                f k + cost pw W orig trim (k + 1) j < p.2 then
              (k, f k + cost pw W orig trim (k + 1) j)
            else p)
          p).1 < j ∧
        0 ≤ cost pw W orig trim ((l.foldl
          (fun p k =>
            if 0 ≤ cost pw W orig trim (k + 1) j ∧
                f k + cost pw W orig trim (k + 1) j < p.2 then
              (k, f k + cost pw W orig trim (k + 1) j)
            else p)
          p).1 + 1) j) := by
  intro l
  induction l with
  | nil =>
      intro _ p h1 h2
      exact ⟨h1, h2⟩
  | cons k l ih =>
      intro hmem p h1 h2
      rw [List.foldl_cons]
      by_cases hc : 0 ≤ cost pw W orig trim (k + 1) j ∧
          f k + cost pw W orig trim (k + 1) j < p.2
      · rw [if_pos hc]
        exact ih (fun x hx => hmem x (List.mem_cons_of_mem k hx)) _
          (hmem k (List.mem_cons_self k l)) hc.1
      · rw [if_neg hc]
        exact ih (fun x hx => hmem x (List.mem_cons_of_mem k hx)) p h1 h2

/-- The chosen wrap-after index is below `j` and its line is feasible. -/
lemma kLoop_spec (f : Nat → ℚ) (j i0 : Nat) (h1 : i0 < j)
    (h2 : 0 ≤ cost pw W orig trim (i0 + 1) j) :
    (kLoop pw W orig trim f j i0).1 < j ∧
      0 ≤ cost pw W orig trim ((kLoop pw W orig trim f j i0).1 + 1) j := by
  unfold kLoop
  refine kLoop_foldl_inv f j _ ?_ _ h1 h2
  intro k hk
  rw [List.mem_range'] at hk
  omega

/-- Every `true` entry of row `j` is strictly below `j`: the planner
never wraps after the last word of the span it is printing. -/
lemma dynIter_row_bound (Hpw : ∀ c : Int, 0 ≤ c → 0 ≤ pw c) :
    ∀ j k, (dynIter pw W orig trim (j + 1)).2 j k = true → k < j := by
  intro j k hk
  rw [dynIter_succ] at hk
  by_cases h : 0 ≤ cost pw W orig trim 0 j
  · rw [dynStep_pos _ _ h] at hk
    have hrow := @dynIter_row_untouched pw W orig trim j j (le_refl j)
    rw [hrow] at hk
    exact absurd hk (by simp)
  · have hj : 1 ≤ j := by
      by_contra hj0
      have : j = 0 := by omega
      subst this
      exact h (cost_diag_nonneg Hpw 0)
    rw [dynStep_neg _ _ h] at hk
    simp only [Function.update_same] at hk
    have hff := @firstFeasible_spec pw W orig trim Hpw j hj
    have hkl := kLoop_spec (dynIter pw W orig trim j).1 j
      (firstFeasible pw W orig trim j) hff.1 hff.2
    by_cases hlt : k < (kLoop pw W orig trim (dynIter pw W orig trim j).1 j
        (firstFeasible pw W orig trim j)).1
    · omega
    · rw [if_neg hlt] at hk
      have : k = (kLoop pw W orig trim (dynIter pw W orig trim j).1 j
          (firstFeasible pw W orig trim j)).1 := of_decide_eq_true hk
      omega

end DynLemmas

/-! ## List bookkeeping lemmas -/

section ListLemmas

/-- A filter whose predicate only holds below `c` ignores the range
beyond `c`. -/
lemma filter_range_eq_of_bound (p : Nat → Bool) (c m : Nat)
    (h : ∀ k, p k = true → k < c) (hcm : c ≤ m) :
    (List.range m).filter p = (List.range c).filter p := by
  have hm : m = c + (m - c) := by omega
  rw [hm, List.range_add, List.filter_append]
  have h2 : ((List.range (m - c)).map (c + ·)).filter p = [] := by
    rw [List.filter_eq_nil_iff]
    intro a ha
    rcases List.mem_map.1 ha with ⟨x, _, hx⟩
    intro hpa
    have := h a hpa
    omega
  rw [h2, List.append_nil]

/-- Row `j`, built as row `i` below `i` plus `true` at `i`, filters to
the break list of row `i` with `i` appended. -/
lemma filter_merge (r : Nat → Bool) (i m : Nat)
    (h : ∀ k, r k = true → k < i) (him : i < m) :
    (List.range m).filter (fun k => if k < i then r k else decide (k = i)) =
      (List.range i).filter r ++ [i] := by
  have hb : ∀ k, (if k < i then r k else decide (k = i)) = true → k < i + 1 := by
    intro k hk
    by_cases hlt : k < i
    · omega
    · rw [if_neg hlt] at hk
      have : k = i := of_decide_eq_true hk
      omega
  rw [filter_range_eq_of_bound _ (i + 1) m hb (by omega)]
  rw [List.range_succ, List.filter_append]
  have h1 : (List.range i).filter (fun k => if k < i then r k else decide (k = i)) =
      (List.range i).filter r := by
    apply List.filter_congr
    intro k hk
    rw [if_pos (List.mem_range.1 hk)]
  have h2 : [i].filter (fun k => if k < i then r k else decide (k = i)) = [i] := by
    have : (if i < i then r i else decide (i = i)) = true := by
      rw [if_neg (by omega)]
      simp
    simp [List.filter, this]
  rw [h1, h2]

/-- Appending a final break splits off the trailing line. -/
lemma linesFrom_append (a last x : Nat) (bs : List Nat) :
    linesFrom a (bs ++ [x]) last = linesFrom a bs x ++ [(x + 1, last)] := by
  unfold linesFrom
  rw [List.map_append]
  simp only [List.map_cons, List.map_nil]
  have hc : a :: (bs.map (· + 1) ++ [x + 1]) =
      (a :: bs.map (· + 1)) ++ [x + 1] := rfl
  rw [hc]
  rw [List.zip_append (by simp)]
  rfl

end ListLemmas

/-! ## The dynamic planner keeps every line within budget -/

section DynMain

variable {pw : Int → ℚ} {W : Nat} {orig trim : Nat → Nat}

/-- Invariant of the forward loop: the break list encoded by row `j`
cuts words `0..j` into lines that are each within the budget or a
single word. -/
lemma dyn_lines (Hpw : ∀ c : Int, 0 ≤ c → 0 ≤ pw c) :
    ∀ j, ∀ pe ∈ linesFrom 0
        ((List.range (j + 1)).filter fun k => (dynIter pw W orig trim (j + 1)).2 j k)
        j,
      W < lineSum orig trim pe.1 pe.2 → pe.1 = pe.2 := by
  intro j
  induction j using Nat.strong_induction_on with
  | h j ih =>
    intro pe hpe hover
    rw [dynIter_succ] at hpe
    by_cases h : 0 ≤ cost pw W orig trim 0 j
    · rw [dynStep_pos _ _ h] at hpe
      have hpe1 : pe ∈ linesFrom 0
          ((List.range (j + 1)).filter fun k => (dynIter pw W orig trim j).2 j k)
          j := hpe
      have hrow := @dynIter_row_untouched pw W orig trim j j (le_refl j)
      rw [hrow] at hpe1
      have hnil : (List.range (j + 1)).filter (fun k => (false : Bool)) = [] := by
        simp
      rw [hnil, linesFrom_nil] at hpe1
      have hpe2 : pe = (0, j) := List.mem_singleton.1 hpe1
      subst hpe2
      show 0 = j
      by_contra h0
      have hj : 0 < j := by omega
      have hfits := cost_nonneg_fits hj h
      have hover2 : W < lineSum orig trim 0 j := hover
      omega
    · have hj : 1 ≤ j := by
        by_contra hj0
        have : j = 0 := by omega
        subst this
        exact h (cost_diag_nonneg Hpw 0)
      rw [dynStep_neg _ _ h] at hpe
      simp only [Function.update_same] at hpe
      have hff := @firstFeasible_spec pw W orig trim Hpw j hj
      have hkl := kLoop_spec (dynIter pw W orig trim j).1 j
        (firstFeasible pw W orig trim j) hff.1 hff.2
      set i := (kLoop pw W orig trim (dynIter pw W orig trim j).1 j
        (firstFeasible pw W orig trim j)).1 with hidef
      have hstab : (dynIter pw W orig trim j).2 i =
          (dynIter pw W orig trim (i + 1)).2 i :=
        dynIter_row_stable j i hkl.1
      rw [hstab] at hpe
      have hbound : ∀ k, (dynIter pw W orig trim (i + 1)).2 i k = true → k < i :=
        dynIter_row_bound Hpw i
      rw [filter_merge _ i (j + 1) hbound (by omega)] at hpe
      rw [linesFrom_append] at hpe
      rcases List.mem_append.1 hpe with hin | hin
      · have hshrink : (List.range (i + 1)).filter
            (fun k => (dynIter pw W orig trim (i + 1)).2 i k) =
            (List.range i).filter
            (fun k => (dynIter pw W orig trim (i + 1)).2 i k) :=
          filter_range_eq_of_bound _ i (i + 1) hbound (by omega)
        have hin2 : pe ∈ linesFrom 0
            ((List.range (i + 1)).filter
              (fun k => (dynIter pw W orig trim (i + 1)).2 i k)) i := by
          rw [hshrink]
          exact hin
        exact ih i hkl.1 pe hin2 hover
      · have hpe2 : pe = (i + 1, j) := List.mem_singleton.1 hin
        subst hpe2
        show i + 1 = j
        by_contra hne
        have hlt : i + 1 < j := by omega
        have hfits := cost_nonneg_fits hlt hkl.2
        have hover2 : W < lineSum orig trim (i + 1) j := hover
        omega

end DynMain

/-! ## Break-set shape lemmas shared by both planners -/

section BreakShape

variable {pw : Int → ℚ} {W : Nat} {orig trim : Nat → Nat}

/-- Every dynamic break is at most `n - 2`: the planner never emits a
break after the final word. -/
lemma dyn_breaks_bound (Hpw : ∀ c : Int, 0 ≤ c → 0 ≤ pw c) (n : Nat)
    (hn : 1 ≤ n) :
    ∀ k ∈ stri__wrap_dynamic pw W orig trim n, k + 2 ≤ n := by
  intro k hk
  unfold stri__wrap_dynamic at hk
  rcases List.mem_filter.1 hk with ⟨_, hpred⟩
  have hstab : (dynIter pw W orig trim n).2 (n - 1) =
      (dynIter pw W orig trim ((n - 1) + 1)).2 (n - 1) := by
    have hm : n - 1 + 1 = n := by omega
    rw [hm]
  rw [hstab] at hpred
  have := dynIter_row_bound Hpw (n - 1) k hpred
  omega

/-- The dynamic break list is strictly increasing (it is read off the
last row in index order). -/
lemma dyn_breaks_chain (n : Nat) :
    List.Chain' (· < ·) (stri__wrap_dynamic pw W orig trim n) := by
  unfold stri__wrap_dynamic
  exact ((List.pairwise_lt_range n).filter _).chain'

/-- Every greedy break is at most `n - 2`. -/
lemma greedy_breaks_bound (n : Nat) :
    ∀ k ∈ stri__wrap_greedy W orig trim n, k + 2 ≤ n := by
  intro k hk
  unfold stri__wrap_greedy at hk
  have := greedyAux_bounds (n - 1) 1 (orig 0) (le_refl 1) k hk
  omega

/-- The greedy break list is strictly increasing. -/
lemma greedy_breaks_chain (n : Nat) :
    List.Chain' (· < ·) (stri__wrap_greedy W orig trim n) := by
  unfold stri__wrap_greedy
  exact greedyAux_chain (n - 1) 1 (orig 0) (le_refl 1)

end BreakShape

/-! ## Lemmas about the measurement scan -/

section ScanLemmas

variable {white : Nat → Bool} {pos : List Nat} {total : Nat}

lemma scan_nil (j : Nat) (st : ScanSt) :
    scan white pos total [] j st = .ok st := rfl

lemma scan_cons_bad (rest : List Sym) (j : Nat) (st : ScanSt) :
    scan white pos total (Sym.bad :: rest) j st =
      scan white pos total rest (j + 1) { st with fellback := true } := rfl

/-- A forbidden line-break code point anywhere in the remaining symbols
makes the scan throw, whatever the current state. -/
lemma scan_hardBreak :
    ∀ (syms : List Sym) (j : Nat) (st : ScanSt),
      (∃ c, Sym.cp c ∈ syms ∧ c ∈ lineBreakList) →
      scan white pos total syms j st = .error .hardBreak := by
  intro syms
  induction syms with
  | nil =>
      intro j st hex
      rcases hex with ⟨c, hc1, _⟩
      exact absurd hc1 (List.not_mem_nil _)
  | cons s rest ih =>
      intro j st hex
      rcases hex with ⟨c, hc1, hc2⟩
      cases s with
      | bad =>
          rw [scan_cons_bad]
          apply ih
          refine ⟨c, ?_, hc2⟩
          rcases List.mem_cons.1 hc1 with h | h
          · exact absurd h (by simp)
          · exact h
      | cp c2 =>
          simp only [scan]
          by_cases hb : c2 ∈ lineBreakList
          · rw [if_pos hb]
          · rw [if_neg hb]
            have hcr : Sym.cp c ∈ rest := by
              rcases List.mem_cons.1 hc1 with h | h
              · exfalso
                have : c = c2 := by
                  injection h
                subst this
                exact hb hc2
              · exact h
            by_cases hblk : total ≤ j + 1 ∨ pos.getD (st.curBlock + 1) 0 ≤ j + 1
            · rw [if_pos hblk]
              exact ih _ _ ⟨c, hcr, hc2⟩
            · rw [if_neg hblk]
              exact ih _ _ ⟨c, hcr, hc2⟩

end ScanLemmas

/-! ## Facts about the concrete instances -/

section InstanceFacts

lemma pw2_nonneg : ∀ c : Int, 0 ≤ c → 0 ≤ pw2 c := by
  intro c _
  unfold pw2
  exact mul_self_nonneg _

lemma tSwap_le_oSwap : ∀ k, tSwap k ≤ oSwap k := by
  intro k
  rcases k with _ | _ | k <;> simp [tSwap, oSwap]

end InstanceFacts

/-! # Claim theorems -/

/-- C1 counterexample: for the words (original widths 2, 1; trimmed
widths 1, 1) and width 2, the code's cost of the line holding words 0..1
is the infeasible sentinel (-1), because the code charges word 0 its
original width 2 plus the trimmed width 1 of word 1 (sum 3 > 2), whereas
the formula of the claim (trimmed width of word 0 plus original width of
word 1, sum 2 ≤ 2) yields cost (2-2)^exponent = 0. -/
theorem C1_cost_formula_counterexample :
    cost pw2 2 oSwap tSwap 0 1 = -1 ∧
    costClaim pw2 2 oSwap tSwap 0 1 = 0 ∧
    cost pw2 2 oSwap tSwap 0 1 ≠ costClaim pw2 2 oSwap tSwap 0 1 := by
  refine ⟨?_, ?_, ?_⟩ <;>
    norm_num [cost, costCell, costClaim, lineSumClaim, pw2, oSwap, tSwap]

/-- C1 (amended): the cost of a candidate line spanning words i..j
(i ≤ j) is computed from the sum of original_width for words i..j-1 plus
trimmed_width for word j; if that sum exceeds the width budget the cost
is the infeasible sentinel, except that a single-word line (i == j) is
never infeasible and an overlong single word gets cost 0; otherwise the
cost is the leftover (width - sum) raised to the exponent (`pw`). -/
theorem C1_cost_formula (pw : Int → ℚ) (W : Nat) (orig trim : Nat → Nat)
    (i j : Nat) (Hpw : ∀ c : Int, 0 ≤ c → 0 ≤ pw c)
    (Hto : ∀ k, trim k ≤ orig k) (hij : i ≤ j) :
    cost pw W orig trim i j = costDirect pw W orig trim i j :=
  cost_eq_costDirect Hpw Hto hij

/-- Witness for C1 at the counterexample words, i = 0, j = 1. -/
theorem C1_cost_formula_witness :
    (∀ c : Int, 0 ≤ c → 0 ≤ pw2 c) ∧ (∀ k, tSwap k ≤ oSwap k) ∧ (0 : Nat) ≤ 1 ∧
    cost pw2 2 oSwap tSwap 0 1 = costDirect pw2 2 oSwap tSwap 0 1 :=
  ⟨pw2_nonneg, tSwap_le_oSwap, by omega,
    C1_cost_formula pw2 2 oSwap tSwap 0 1 pw2_nonneg tSwap_le_oSwap (by omega)⟩

/-- C2: under either policy, every line of the final partition (the
planner's breaks followed by the driver's terminal line end `n-1`) whose
width — original widths of all its words but the last plus the trimmed
width of its last word — exceeds the budget is a single-word line. -/
theorem C2_lines_within_width (pw : Int → ℚ) (W : Nat) (orig trim : Nat → Nat)
    (n : Nat) (bs : List Nat) (Hpw : ∀ c : Int, 0 ≤ c → 0 ≤ pw c) (hn : 1 ≤ n)
    (hbs : bs = stri__wrap_greedy W orig trim n ∨
      bs = stri__wrap_dynamic pw W orig trim n) :
    ∀ pe ∈ linesFrom 0 bs (n - 1),
      W < lineSum orig trim pe.1 pe.2 → pe.1 = pe.2 := by
  rcases hbs with hb | hb
  · subst hb
    unfold stri__wrap_greedy
    have hg := @greedyAux_lines W orig trim (n - 1) 1 0 (le_refl 1) (by omega)
      (Or.inr (by omega))
    have hlast : 1 + (n - 1) - 1 = n - 1 := by omega
    rw [hlast] at hg
    have horig : (∑ k ∈ Finset.Ico 0 1, orig k) = orig 0 := by
      simp
    rw [horig] at hg
    exact hg
  · subst hb
    have hd := @dyn_lines pw W orig trim Hpw (n - 1)
    have hn1 : n - 1 + 1 = n := by omega
    rw [hn1] at hd
    unfold stri__wrap_dynamic
    exact hd

/-- Witness for C2: the greedy policy on the words of
"The quick brown fox jumps" with width 10. -/
theorem C2_lines_within_width_witness :
    (∀ c : Int, 0 ≤ c → 0 ≤ pw2 c) ∧ (1 : Nat) ≤ 5 ∧
    (stri__wrap_greedy 10 oFox tFox 5 = stri__wrap_greedy 10 oFox tFox 5 ∨
      stri__wrap_greedy 10 oFox tFox 5 = stri__wrap_dynamic pw2 10 oFox tFox 5) ∧
    ∀ pe ∈ linesFrom 0 (stri__wrap_greedy 10 oFox tFox 5) (5 - 1),
      10 < lineSum oFox tFox pe.1 pe.2 → pe.1 = pe.2 :=
  ⟨pw2_nonneg, by omega, Or.inl rfl,
    C2_lines_within_width pw2 10 oFox tFox 5 _ pw2_nonneg (by omega) (Or.inl rfl)⟩

/-- C3 counterexample: with two words of width 2 each (no trailing
whitespace) and width 2, the code's loop (which visits word
j = wordCount-1 = 1) emits the break [0], while the iteration described
by the claim (j through wordCount-2, i.e. no iteration at all) emits no
break. -/
theorem C3_greedy_iteration_counterexample :
    stri__wrap_greedy 2 oTwo oTwo 2 = [0] ∧
    greedyClaimIter 2 oTwo oTwo 2 = [] ∧
    stri__wrap_greedy 2 oTwo oTwo 2 ≠ greedyClaimIter 2 oTwo oTwo 2 := by
  refine ⟨?_, ?_, ?_⟩ <;> decide

/-- C3 (amended): the greedy policy maintains a current line width
initialized to words[0].original_width and, iterating over words
j = 1 .. wordCount-1, emits a break after word j-1 and resets the
current width to words[j].original_width exactly when
current_width + words[j].trimmed_width > width, otherwise adds
words[j].original_width; the planner is total, so a word that alone
exceeds the width is still placed on its own line without error. -/
theorem C3_greedy_iteration (W : Nat) (orig trim : Nat → Nat) (n : Nat) :
    stri__wrap_greedy W orig trim n = greedyAmendIter W orig trim n := by
  unfold stri__wrap_greedy greedyAmendIter
  rw [greedy_foldl_eq (n - 1) 1 (orig 0) []]
  simp

/-- C4 (code bug): on the string [letter, invalid byte] with boundaries
[0, 2] and width 5, the `continue` in the measurement loop resumes the
inner `while` rather than the per-string `for`: the fallback value is
stored (the scan records it) but the driver then plans and builds from
the never-flushed zero counts and overwrites the fallback, returning one
empty line instead of the original string. -/
theorem C4_invalid_sequence_fallback_overwritten :
    wrapOne white0 pw2 0 5 c4str [0, 2] = .ok [[]] ∧
    Except.map ScanSt.fellback (scan white0 [0, 2] 2 c4str 0 scanInit) =
      .ok true ∧
    [([] : List Sym)] ≠ [c4str] :=
  ⟨rfl, rfl, by decide⟩

/-- C5 (code bug): with width 10, exponent 2, original widths
[1, 2, 4, 5] and trimmed widths [1, 2, 2, 5], the two feasible starts of
the line ending at word 3 — start 2 (recorded via wrap-after index 1)
and start 3 (wrap-after index 2) — tie at the true minimal total cost
f[1] + cost[2][3] = f[2] + cost[3][3] = 50 (start 1 is infeasible), yet
the code records start 3: its first candidate is mispriced as
f[0] + cost[2][3] = 82 instead of f[1] + cost[2][3] = 50, so the later
candidate wins the comparison and the output break set is [2], not [1]. -/
theorem C5_dynamic_tiebreak_bug :
    stri__wrap_dynamic pw2 10 oEx5 tEx5 4 = [2] ∧
    (dynIter pw2 10 oEx5 tEx5 4).1 1 + cost pw2 10 oEx5 tEx5 2 3 =
      (dynIter pw2 10 oEx5 tEx5 4).1 2 + cost pw2 10 oEx5 tEx5 3 3 ∧
    cost pw2 10 oEx5 tEx5 1 3 < 0 ∧
    stri__wrap_dynamic pw2 10 oEx5 tEx5 4 ≠ [1] := by
  refine ⟨?_, ?_, ?_, ?_⟩ <;>
    norm_num [stri__wrap_dynamic, dynIter, dynStep, kLoop, firstFeasible, cost,
      costCell, pw2, oEx5, tEx5, Function.update, List.range_succ, List.range',
      List.find?, List.foldl, List.filter]

/-- C6: a string containing a scanned code point of the forbidden
embedded line-break set (LF, VT, FF, CR, NEL, LS, PS) makes the
per-string measurement fail with the HardBreakInText error
(`throw StriException(MSG__NEWLINE_FOUND)`) — an error, not a fallback. -/
theorem C6_hardbreak_error (white : Nat → Bool) (pw : Int → ℚ) (expo : ℚ)
    (W : Nat) (syms : List Sym) (pos : List Nat) (c : Nat)
    (hpos : 2 ≤ pos.length) (hmem : Sym.cp c ∈ syms) (hbr : c ∈ lineBreakList) :
    wrapOne white pw expo W syms pos = .error .hardBreak := by
  unfold wrapOne
  rw [if_neg (by omega)]
  rw [scan_hardBreak syms 0 scanInit ⟨c, hmem, hbr⟩]

/-- Witness for C6: a line feed inside "a\n" with boundaries [0, 2]. -/
theorem C6_hardbreak_error_witness :
    2 ≤ ([0, 2] : List Nat).length ∧ Sym.cp 10 ∈ [Sym.cp 97, Sym.cp 10] ∧
    10 ∈ lineBreakList ∧
    wrapOne white0 pw2 0 10 [Sym.cp 97, Sym.cp 10] [0, 2] = .error .hardBreak :=
  ⟨by decide, by decide, by decide,
    C6_hardbreak_error white0 pw2 0 10 [Sym.cp 97, Sym.cp 10] [0, 2] 10
      (by decide) (by decide) (by decide)⟩

/-- C7: a call with width ≤ 0 is rejected with InvalidArgument before
any per-string work: the whole batch call returns the error and no
per-string result is produced. -/
theorem C7_width_rejected (white : Nat → Bool) (pw : Int → ℚ) (expo : ℚ)
    (width : Int) (strs : List (Option (List Sym × List Nat)))
    (h : width ≤ 0) :
    stri_wrap white pw expo width strs = .error .invalidArgument := by
  unfold stri_wrap
  rw [if_pos h]

/-- Witness for C7: width 0 on a one-string batch. -/
theorem C7_width_rejected_witness :
    (0 : Int) ≤ 0 ∧
    stri_wrap white0 pw2 0 0 [some (abcd, [0, 3, 5])] = .error .invalidArgument :=
  ⟨le_refl 0,
    C7_width_rejected white0 pw2 0 0 [some (abcd, [0, 3, 5])] (le_refl 0)⟩

/-- C8: when the segmenter returns fewer than two boundary offsets, the
driver short-circuits and the result for that string is exactly one
output line equal to the original string (no scan, planning or building
is reached). -/
theorem C8_no_boundaries_single_line (white : Nat → Bool) (pw : Int → ℚ)
    (expo : ℚ) (W : Nat) (syms : List Sym) (pos : List Nat)
    (h : pos.length < 2) :
    wrapOne white pw expo W syms pos = .ok [syms] := by
  unfold wrapOne
  rw [if_pos (by omega)]

/-- Witness for C8: an empty boundary list on "ab cd". -/
theorem C8_no_boundaries_single_line_witness :
    ([] : List Nat).length < 2 ∧
    wrapOne white0 pw2 0 10 abcd [] = .ok [abcd] :=
  ⟨by decide, C8_no_boundaries_single_line white0 pw2 0 10 abcd [] (by decide)⟩

/-- C9 counterexample: with two words of width 2 and width budget 10
(no planner breaks, `noccurences` = 3), the driver's unconditional
terminal append is index 1 = wordCount-1, not wordCount-2 = 0. -/
theorem C9_terminal_append_counterexample :
    finalBreaks (stri__wrap_greedy 10 oTwo oTwo 2) 3 = [1] ∧
    (1 : Nat) ≠ 2 - 2 := by
  refine ⟨?_, ?_⟩ <;> decide

/-- C9 (amended): for every word array of length n ≥ 1 and every width,
the break set produced by either planner is a strictly increasing
sequence of word indices in the range [0, n-2] — neither planner ever
emits a break after the final word — so the driver's unconditional
append of index noccurences-2 = n-1 as the terminal line end keeps the
full sequence strictly increasing. -/
theorem C9_break_set_shape (pw : Int → ℚ) (W : Nat) (orig trim : Nat → Nat)
    (n : Nat) (bs : List Nat) (Hpw : ∀ c : Int, 0 ≤ c → 0 ≤ pw c) (hn : 1 ≤ n)
    (hbs : bs = stri__wrap_greedy W orig trim n ∨
      bs = stri__wrap_dynamic pw W orig trim n) :
    (∀ k ∈ bs, k + 2 ≤ n) ∧ List.Chain' (· < ·) (finalBreaks bs (n + 1)) := by
  have hbound : ∀ k ∈ bs, k + 2 ≤ n := by
    rcases hbs with hb | hb
    · subst hb
      exact greedy_breaks_bound n
    · subst hb
      exact dyn_breaks_bound Hpw n hn
  have hchain : List.Chain' (· < ·) bs := by
    rcases hbs with hb | hb
    · subst hb
      exact greedy_breaks_chain n
    · subst hb
      exact dyn_breaks_chain n
  refine ⟨hbound, ?_⟩
  unfold finalBreaks
  have h2 : n + 1 - 2 = n - 1 := by omega
  rw [h2]
  rw [List.chain'_append]
  refine ⟨hchain, List.chain'_singleton _, ?_⟩
  intro x hx y hy
  have hxm : x ∈ bs := List.mem_of_mem_getLast? hx
  have hym : y = n - 1 := by
    simp at hy
    omega
  have := hbound x hxm
  omega

/-- Witness for C9: the greedy policy on the words of
"The quick brown fox jumps" with width 10 (noccurences = 6). -/
theorem C9_break_set_shape_witness :
    (∀ c : Int, 0 ≤ c → 0 ≤ pw2 c) ∧ (1 : Nat) ≤ 5 ∧
    (∀ k ∈ stri__wrap_greedy 10 oFox tFox 5, k + 2 ≤ 5) ∧
    List.Chain' (· < ·) (finalBreaks (stri__wrap_greedy 10 oFox tFox 5) 6) :=
  ⟨pw2_nonneg, by omega,
    (C9_break_set_shape pw2 10 oFox tFox 5 _ pw2_nonneg (by omega) (Or.inl rfl)).1,
    (C9_break_set_shape pw2 10 oFox tFox 5 _ pw2_nonneg (by omega) (Or.inl rfl)).2⟩

/-- C10: for howmany ≤ 0, both helpers return R_NilValue (`none`), not a
zero-length character vector; for howmany > 0 they return a vector of
exactly howmany elements, every element NA (respectively the empty
string). -/
theorem C10_mkString (h : Int) :
    (h ≤ 0 → stri__mkStringNA h = none ∧ stri__mkStringEmpty h = none ∧
      stri__mkStringNA h ≠ some [] ∧ stri__mkStringEmpty h ≠ some []) ∧
    (0 < h → stri__mkStringNA h = some (List.replicate h.toNat RChar.NA) ∧
      stri__mkStringEmpty h = some (List.replicate h.toNat (RChar.chr [])) ∧
      (List.replicate h.toNat RChar.NA).length = h.toNat ∧
      (h.toNat : Int) = h) := by
  constructor
  · intro hle
    unfold stri__mkStringNA stri__mkStringEmpty
    rw [if_pos hle, if_pos hle]
    refine ⟨rfl, rfl, ?_, ?_⟩ <;> simp
  · intro hgt
    unfold stri__mkStringNA stri__mkStringEmpty
    rw [if_neg (by omega), if_neg (by omega)]
    exact ⟨rfl, rfl, List.length_replicate _ _, Int.toNat_of_nonneg (by omega)⟩

/-- Witness for C10 at howmany = -1 and howmany = 3. -/
theorem C10_mkString_witness :
    (stri__mkStringNA (-1) = none ∧ stri__mkStringEmpty (-1) = none ∧
      stri__mkStringNA (-1) ≠ some [] ∧ stri__mkStringEmpty (-1) ≠ some []) ∧
    (stri__mkStringNA 3 = some (List.replicate (3 : Int).toNat RChar.NA) ∧
      stri__mkStringEmpty 3 = some (List.replicate (3 : Int).toNat (RChar.chr [])) ∧
      (List.replicate (3 : Int).toNat RChar.NA).length = (3 : Int).toNat ∧
      (((3 : Int).toNat : Int)) = 3) :=
  ⟨(C10_mkString (-1)).1 (by decide), (C10_mkString 3).2 (by decide)⟩

end StringiWrap
